import Mathlib

/-!
# Verification of `matthewdale/mongo-go-exp`

Shallow embedding of the parts of the repository that the checked
properties talk about:

* `cmd/evergreen-test/main.go` — the test-name filter `filterTests` and
  the GraphQL request helper `graphql`;
* `cmd/evergreen-test/topfail.go` — the ranking and top-K truncation of
  the `topfail` subcommand;
* the `failstats` subcommand's `printColumns` ranking;
* `agg/operator.go` — the `Max`, `Min` and `MergeObjects` operator
  builders.

Go slices become Lean lists, strings become Lean strings (Go compares
strings byte-wise; for valid UTF-8 that order coincides with the
code-point order used here), and `sort.Strings` / `sort.Slice` — which
promise a permutation of the input that is sorted with respect to the
comparator — are modelled by an insertion sort for the same comparator.
-/

/-! ## Byte-wise string comparison (the order used by Go `sort.Strings`) -/

/-- Lexicographic comparison of character lists by code point.  Go
compares strings byte-wise; UTF-8 encoding preserves code-point order,
so this is the same total order. -/
def leCharList : List Char → List Char → Bool
  | [], _ => true
  | _ :: _, [] => false
  | a :: as, b :: bs =>
    if a.toNat < b.toNat then true
    else if b.toNat < a.toNat then false
    else leCharList as bs

/-- The order `sort.Strings` sorts by, as a Boolean relation on `String`. -/
def leStr (a b : String) : Bool := leCharList a.data b.data

/-- Char-list version of Go `strings.HasPrefix`: does `s` start with `p`?
(first argument of the Go call is the long string, second the candidate
leading part). -/
def listStartsWith : List Char → List Char → Bool
  | [], _ => true
  | _ :: _, [] => false
  | p :: ps, s :: ss => p == s && listStartsWith ps ss

/-- Go `strings.HasPrefix s p`. -/
def strStartsWith (s p : String) : Bool := listStartsWith p.data s.data

/-! ## Sorting

`sort.Strings` and `sort.Slice` guarantee exactly "a permutation of the
input, ordered by the comparator"; the model realises that contract with
an insertion sort parameterised by the comparator. -/

/-- Insert `x` into `l` in front of the first element `y` with `le x y`. -/
def insertBy (le : α → α → Bool) (x : α) : List α → List α
  | [] => [x]
  | y :: ys => if le x y then x :: y :: ys else y :: insertBy le x ys

/-- Insertion sort by the Boolean comparator `le`. -/
def sortBy (le : α → α → Bool) : List α → List α
  | [] => []
  | x :: xs => insertBy le x (sortBy le xs)

/-- Adjacent-pairs ordering check: every element is `le`-related to its
immediate successor. -/
def chainB (le : α → α → Bool) : List α → Bool
  | [] => true
  | [_] => true
  | a :: b :: t => le a b && chainB le (b :: t)

/-! ## `filterTests` (`cmd/evergreen-test/main.go` lines 494–505)

```go
func filterTests(tests []string) []string {
     sort.Strings(tests)
     res := make([]string, 0, len(tests))
     for i := range tests {
          if i >= len(tests)-1 || strings.HasPrefix(tests[i+1], tests[i]+"/") {
               continue
          }
          res = append(res, tests[i])
     }
     return res
}
```
-/

/-- `sort.Strings tests`: the sorted permutation of `tests`. -/
def sortStrings (tests : List String) : List String := sortBy leStr tests

/-- The loop of `filterTests` over the already-sorted list: index `i` is
skipped when it is the last index (`i >= len(tests)-1`) or when the next
entry starts with `tests[i] + "/"`; otherwise `tests[i]` is kept.
Walking the list by adjacent pairs is that same iteration: the
single-element case is the last index, which is always skipped. -/
def filterAdj : List String → List String
  | [] => []
  | [_] => []
  | x :: y :: rest =>
    if strStartsWith y (x ++ "/") then filterAdj (y :: rest)
    else x :: filterAdj (y :: rest)

/-- Return value of Go `filterTests`. -/
def filterTests (tests : List String) : List String := filterAdj (sortStrings tests)

/-- Contents of the caller's slice after `filterTests` returns:
`sort.Strings` sorts the argument slice in place, and the later
`append`s write into a freshly allocated result slice, so the argument
ends up holding its sorted permutation. -/
def filterTestsPost (tests : List String) : List String := sortStrings tests

/-! ## `topfail` ranking and truncation (`cmd/evergreen-test/topfail.go`
lines 110–130) and the `failstats` `printColumns` ranking

Each aggregated entry is a test (resp. version/variant/task) name paired
with its total failure count.  Both reporters sort the collected entries
with `sort.Slice(..., func(i, j) { return cnt[i] > cnt[j] })`; `topfail`
then truncates:

```go
if limit >= 0 && len(testInfos) > limit {
     n := limit
     if n >= len(testInfos) {
          n = len(testInfos) - 1
     }
     testInfos = testInfos[:n]
}
```
-/

/-- Comparator used by both reporters' `sort.Slice` calls: entry `a`
comes before entry `b` when `a`'s count is at least `b`'s (the Go `less`
function is strict `>`; a sequence sorted by it is exactly a sequence
whose counts are non-increasing). -/
def geCnt (a b : String × Nat) : Bool := decide (b.2 ≤ a.2)

/-- The sorted (descending-count) permutation of the aggregated rows. -/
def rankRows (rows : List (String × Nat)) : List (String × Nat) := sortBy geCnt rows

/-- The truncation step of `topfail` (topfail.go lines 113–119), with
the mutable local `n` inlined: `n` starts as `limit` and is clamped to
`len(testInfos)-1` when `n >= len(testInfos)`; then `testInfos[:n]`. -/
def topfailTruncate (limit : Int) (testInfos : List (String × Nat)) : List (String × Nat) :=
  if limit ≥ 0 ∧ (testInfos.length : Int) > limit then
    testInfos.take
      (if limit ≥ (testInfos.length : Int) then ((testInfos.length : Int) - 1).toNat
       else limit.toNat)
  else testInfos

/-- The rows the `topfail` table prints, in order: sort by descending
count, then truncate. -/
def topfailRows (limit : Int) (rows : List (String × Nat)) : List (String × Nat) :=
  topfailTruncate limit (rankRows rows)

/-- The rows one `failstats` table (`printColumns`) prints, in order:
sort by descending count, no truncation. -/
def failstatsRows (rows : List (String × Nat)) : List (String × Nat) := rankRows rows

/-! ## `agg` operator builders (`agg/operator.go`)

`bson.D` is an ordered list of key/value pairs and `bson.A` an array of
values; the Go `any` parameters range over BSON-representable values,
modelled by the inductive `BsonValue`. -/

namespace agg

/-- A BSON-representable value: the possible shapes of the `any`
arguments handed to the operator builders. -/
inductive BsonValue where
  | str (s : String)
  | int (n : Int)
  | arr (elems : List BsonValue)
  | doc (fields : List (String × BsonValue))

instance : Inhabited BsonValue := ⟨.int 0⟩

/-- `type Operator bson.D`: an ordered document, i.e. a list of
key/value pairs. -/
abbrev Operator := List (String × BsonValue)

/-- `agg.Max` (operator.go lines 120–133): with exactly one argument the
body is that bare argument (`exprs[0]`), otherwise it is the array of
all arguments. -/
def Max (exprs : List BsonValue) : Operator :=
  let body := if exprs.length == 1 then exprs.headI else BsonValue.arr exprs
  [("$max", body)]

/-- `agg.Min` (operator.go lines 135–148), same single-argument
collapsing as `Max`. -/
def Min (exprs : List BsonValue) : Operator :=
  let body := if exprs.length == 1 then exprs.headI else BsonValue.arr exprs
  [("$min", body)]

/-- `agg.MergeObjects` (operator.go lines 150–163), same
single-argument collapsing as `Max`. -/
def MergeObjects (documentExprs : List BsonValue) : Operator :=
  let body := if documentExprs.length == 1 then documentExprs.headI
              else BsonValue.arr documentExprs
  [("$mergeObjects", body)]

end agg

/-! ## The `graphql` helper (`cmd/evergreen-test/main.go` lines 424–476)

The helper marshals a constant-shaped request (which cannot fail for the
maps the program builds), POSTs it, reads the whole body, unmarshals the
body into a struct holding only the top-level `errors` array, and fails
exactly when: the transport round trip (or reading the body) fails, the
body does not unmarshal, or the unmarshalled `errors` array is
non-empty.  On success it returns the raw body.  The HTTP status code of
the response is never read. -/

/-- What unmarshalling the response body into the error-checking struct
yields: either the body is not valid JSON for that struct, or it is,
with some (possibly empty) top-level `errors` array; `data` stands for
the raw body bytes that are returned on success. -/
inductive GqlBody where
  | malformed
  | wellFormed (errors : List String) (data : String)

/-- Outcome of the HTTP round trip: either the request/body-read fails,
or a response with some status code and body comes back. -/
inductive FetchOutcome where
  | transportErr
  | response (status : Nat) (body : GqlBody)

/-- The `graphql` helper's result as a function of the round-trip
outcome.  Note that `status` is ignored: the Go code never inspects
`res.StatusCode`. -/
def graphql : FetchOutcome → Except String GqlBody
  | .transportErr => .error "error querying GraphQL API"
  | .response _ .malformed =>
    .error "error unmarshaling GraphQL response to check for errors"
  | .response _ (.wellFormed errs d) =>
    if errs.length > 0 then .error "GraphQL API returned errors"
    else .ok (.wellFormed errs d)

/-- Does the `graphql` helper return an error for this outcome? -/
def gqlFails (o : FetchOutcome) : Bool :=
  match graphql o with
  | .error _ => true
  | .ok _ => false

/-! ## Helper lemmas: sorting -/

/-- Inserting an element produces a permutation of consing it. -/
theorem perm_insertBy (le : α → α → Bool) (x : α) :
    ∀ l : List α, (insertBy le x l).Perm (x :: l)
  | [] => .refl _
  | y :: ys => by
    unfold insertBy
    split
    · exact .refl _
    · exact ((perm_insertBy le x ys).cons y).trans (List.Perm.swap x y ys)

/-- The sort returns a permutation of its input. -/
theorem perm_sortBy (le : α → α → Bool) : ∀ l : List α, (sortBy le l).Perm l
  | [] => .refl _
  | x :: xs => (perm_insertBy le x (sortBy le xs)).trans ((perm_sortBy le xs).cons x)

/-- Prepend an element to an ordered list when it relates to the head. -/
theorem chainB_cons (le : α → α → Bool) (a : α) (l : List α)
    (h1 : chainB le l = true) (h2 : ∀ b t, l = b :: t → le a b = true) :
    chainB le (a :: l) = true := by
  cases l with
  | nil => rfl
  | cons b t => simp only [chainB, Bool.and_eq_true]; exact ⟨h2 b t rfl, h1⟩

/-- Decompose orderedness of a list with at least two elements. -/
theorem chainB_cons_iff (le : α → α → Bool) (a b : α) (t : List α) :
    chainB le (a :: b :: t) = true ↔ le a b = true ∧ chainB le (b :: t) = true := by
  simp [chainB]

/-- Shape of an insertion: either the element goes in front, or the head
stays and the insertion continues in the tail. -/
theorem insertBy_shape (le : α → α → Bool) (x : α) :
    ∀ l : List α, insertBy le x l = x :: l ∨
      ∃ z zs, l = z :: zs ∧ le x z = false ∧ insertBy le x l = z :: insertBy le x zs
  | [] => .inl rfl
  | z :: zs => by
    by_cases h : le x z = true
    · left; simp [insertBy, h]
    · right
      refine ⟨z, zs, rfl, by simpa using h, ?_⟩
      simp [insertBy, h]

/-- Inserting into an ordered list keeps it ordered, provided the
comparator is total. -/
theorem chainB_insertBy (le : α → α → Bool)
    (htot : ∀ a b, le a b = true ∨ le b a = true) (x : α) :
    ∀ l : List α, chainB le l = true → chainB le (insertBy le x l) = true
  | [] => fun _ => rfl
  | y :: ys => fun h => by
    by_cases hxy : le x y = true
    · have : chainB le (x :: y :: ys) = true := (chainB_cons_iff le x y ys).mpr ⟨hxy, h⟩
      simpa [insertBy, hxy] using this
    · have hyx : le y x = true := (htot x y).resolve_left hxy
      have hys : chainB le ys = true := by
        cases ys with
        | nil => rfl
        | cons z zs => exact ((chainB_cons_iff le y z zs).mp h).2
      have hins := chainB_insertBy le htot x ys hys
      simp only [insertBy, hxy, if_false, Bool.false_eq_true]
      refine chainB_cons le y _ hins ?_
      intro b t hbt
      rcases insertBy_shape le x ys with hsh | ⟨z, zs, hzs, _, hsh⟩
      · rw [hsh] at hbt
        cases hbt
        exact hyx
      · rw [hsh] at hbt
        cases hbt
        subst hzs
        exact ((chainB_cons_iff le y b zs).mp h).1

/-- The sort's output is ordered, provided the comparator is total. -/
theorem chainB_sortBy (le : α → α → Bool)
    (htot : ∀ a b, le a b = true ∨ le b a = true) :
    ∀ l : List α, chainB le (sortBy le l) = true
  | [] => rfl
  | x :: xs => chainB_insertBy le htot x (sortBy le xs) (chainB_sortBy le htot xs)

/-- A front segment of an ordered list is ordered. -/
theorem chainB_take (le : α → α → Bool) :
    ∀ (l : List α) (n : Nat), chainB le l = true → chainB le (l.take n) = true
  | _, 0, _ => by simp [chainB]
  | [], _, _ => by simp [chainB]
  | [a], n + 1, _ => by simp [List.take, chainB]
  | a :: b :: t, 1, _ => by simp [List.take, chainB]
  | a :: b :: t, n + 2, h => by
    have hparts := (chainB_cons_iff le a b t).mp h
    have htail := chainB_take le (b :: t) (n + 1) hparts.2
    simpa [List.take, chainB_cons_iff] using ⟨hparts.1, by simpa [List.take] using htail⟩

/-! ## Helper lemmas: the string order -/

/-- The string comparator is total. -/
theorem leCharList_total : ∀ x y, leCharList x y = true ∨ leCharList y x = true
  | [], _ => .inl rfl
  | _ :: _, [] => .inr rfl
  | a :: as, b :: bs => by
    rcases Nat.lt_trichotomy a.toNat b.toNat with h | h | h
    · left; simp [leCharList, h]
    · have h1 : ¬a.toNat < b.toNat := by omega
      have h2 : ¬b.toNat < a.toNat := by omega
      simpa [leCharList, h1, h2] using leCharList_total as bs
    · right; simp [leCharList, h]

/-- Characters with equal code points are equal. -/
theorem char_eq_of_toNat_eq {a b : Char} (h : a.toNat = b.toNat) : a = b := by
  have h2 := congrArg Char.ofNat h
  rwa [Char.ofNat_toNat, Char.ofNat_toNat] at h2

/-- The string comparator is antisymmetric. -/
theorem leCharList_antisymm : ∀ x y, leCharList x y = true → leCharList y x = true → x = y
  | [], [], _, _ => rfl
  | [], _ :: _, _, h2 => by simp [leCharList] at h2
  | _ :: _, [], h1, _ => by simp [leCharList] at h1
  | a :: as, b :: bs, h1, h2 => by
    rcases Nat.lt_trichotomy a.toNat b.toNat with h | h | h
    · simp [leCharList, h, Nat.lt_asymm h] at h2
    · have hne1 : ¬a.toNat < b.toNat := by omega
      have hne2 : ¬b.toNat < a.toNat := by omega
      have h1t : leCharList as bs = true := by simpa [leCharList, hne1, hne2] using h1
      have h2t : leCharList bs as = true := by simpa [leCharList, hne1, hne2] using h2
      rw [char_eq_of_toNat_eq h, leCharList_antisymm as bs h1t h2t]
    · simp [leCharList, h, Nat.lt_asymm h] at h1

/-- Totality of `leStr`. -/
theorem leStr_total (a b : String) : leStr a b = true ∨ leStr b a = true :=
  leCharList_total a.data b.data

/-- Antisymmetry of `leStr`. -/
theorem leStr_antisymm {a b : String} (h1 : leStr a b = true) (h2 : leStr b a = true) :
    a = b :=
  String.ext (leCharList_antisymm a.data b.data h1 h2)

/-- Totality of the descending-count comparator. -/
theorem geCnt_total (a b : String × Nat) : geCnt a b = true ∨ geCnt b a = true := by
  rcases Nat.le_total b.2 a.2 with h | h
  · left; simpa [geCnt] using h
  · right; simpa [geCnt] using h

/-! ## Helper lemmas: the `filterTests` loop -/

/-- The loop's output is a sublist of its (sorted) input without that
input's last element: the last index is always skipped. -/
theorem filterAdj_sublist : ∀ m : List String, (filterAdj m).Sublist m.dropLast
  | [] => by simp [filterAdj]
  | [x] => by simp [filterAdj]
  | x :: y :: rest => by
    have ih := filterAdj_sublist (y :: rest)
    unfold filterAdj
    split
    · exact ih.cons x
    · exact ih.cons₂ x

/-- On a non-empty list the loop returns strictly fewer elements than it
was given. -/
theorem filterAdj_length_lt : ∀ m : List String, m ≠ [] → (filterAdj m).length < m.length
  | [], h => absurd rfl h
  | [_], _ => by simp [filterAdj]
  | x :: y :: rest, _ => by
    have ih := filterAdj_length_lt (y :: rest) (by simp)
    unfold filterAdj
    split
    · exact Nat.lt_trans ih (by simp)
    · simpa using Nat.succ_lt_succ ih

/-- Every element the loop keeps sits at some non-final position of the
input, and the entry right after it does not extend it with `"/"`. -/
theorem filterAdj_mem_shape :
    ∀ m : List String, ∀ t ∈ filterAdj m,
      ∃ l1 u l2, m = l1 ++ t :: u :: l2 ∧ strStartsWith u (t ++ "/") = false
  | [], t, h => absurd h (by simp [filterAdj])
  | [_], t, h => absurd h (by simp [filterAdj])
  | x :: y :: rest, t, h => by
    rw [filterAdj] at h
    split at h
    case isTrue hpre =>
      obtain ⟨l1, u, l2, heq, hf⟩ := filterAdj_mem_shape (y :: rest) t h
      exact ⟨x :: l1, u, l2, by rw [heq]; rfl, hf⟩
    case isFalse hpre =>
      rcases List.mem_cons.mp h with h1 | h2
      · subst h1
        exact ⟨[], y, rest, rfl, by simpa using hpre⟩
      · obtain ⟨l1, u, l2, heq, hf⟩ := filterAdj_mem_shape (y :: rest) t h2
        exact ⟨x :: l1, u, l2, by rw [heq]; rfl, hf⟩

/-- In an ordered duplicate-free list whose elements are all at most
`g`, the value `g` never sits strictly before the last position. -/
theorem max_not_mem_dropLast (g : String) :
    ∀ s : List String, chainB leStr s = true → s.Nodup →
      (∀ x ∈ s, leStr x g = true) → g ∉ s.dropLast
  | [] => by simp
  | [_] => by simp
  | a :: b :: t => fun hchain hnodup hmax => by
    have hparts := (chainB_cons_iff leStr a b t).mp hchain
    have ih := max_not_mem_dropLast g (b :: t) hparts.2 hnodup.of_cons
      (fun x hx => hmax x (List.mem_cons_of_mem a hx))
    intro hmem
    have hmem2 : g ∈ a :: (b :: t).dropLast := hmem
    rcases List.mem_cons.mp hmem2 with hga | hgd
    · have hba : leStr b a = true := hga ▸ hmax b (by simp)
      have hab : a = b := leStr_antisymm hparts.1 hba
      have : a ∉ b :: t := (List.nodup_cons.mp hnodup).1
      exact this (hab ▸ List.mem_cons_self b t)
    · exact ih hgd

/-! ## Claims about `filterTests` (C1, C3, C5, C9, C10) -/

/-- C1, counterexample: on `["a", "a/b", "c"]` the filter does not
return `["a", "c"]` — the loop drops `"a"` (its successor `"a/b"`
extends it with `"/"`), drops the last element `"c"` unconditionally,
and keeps `"a/b"`. -/
theorem c1_counterexample : filterTests ["a", "a/b", "c"] ≠ ["a", "c"] := by decide

/-- C1, amended: for the input list `["a", "a/b", "c"]` the test-name
filter returns exactly `["a/b"]`. -/
theorem c1_amended_filterTests : filterTests ["a", "a/b", "c"] = ["a/b"] := by decide

/-- C3, counterexample: on `["a", "a!", "a/b", "z"]` the returned list
contains both `"a"` and `"a/b"`, and `"a"` is a strict ancestor of
`"a/b"` under the `"parent/"` rule — the sorted neighbour of `"a"` is
`"a!"`, so the adjacency check misses the non-adjacent descendant. -/
theorem c3_counterexample :
    "a" ∈ filterTests ["a", "a!", "a/b", "z"] ∧
    "a/b" ∈ filterTests ["a", "a!", "a/b", "z"] ∧
    "a" ≠ "a/b" ∧ strStartsWith "a/b" ("a" ++ "/") = true := by decide

/-- C3, amended: the filter only checks lexicographically adjacent
entries — every returned name occupies some non-final position of the
sorted input whose immediate successor does not extend it with `"/"`.
Returned names may still have other (non-adjacent) returned names as
strict ancestors. -/
theorem c3_amended_adjacent (tests : List String) (t : String)
    (h : t ∈ filterTests tests) :
    ∃ l1 u l2, sortStrings tests = l1 ++ t :: u :: l2 ∧
      strStartsWith u (t ++ "/") = false :=
  filterAdj_mem_shape (sortStrings tests) t h

/-- C3, witness for the amended theorem at `tests = ["a", "b"]`,
`t = "a"`. -/
theorem c3_amended_adjacent_witness :
    "a" ∈ filterTests ["a", "b"] ∧
    (∃ l1 u l2, sortStrings ["a", "b"] = l1 ++ "a" :: u :: l2 ∧
      strStartsWith u ("a" ++ "/") = false) :=
  ⟨by decide, c3_amended_adjacent ["a", "b"] "a" (by decide)⟩

/-- C5, counterexample: the filter is not idempotent — on
`["a", "b", "c"]` it returns `["a", "b"]`, and re-applying it returns
`["a"]` (the unconditional skip of the last sorted element shrinks any
non-empty output). -/
theorem c5_counterexample :
    filterTests (filterTests ["a", "b", "c"]) ≠ filterTests ["a", "b", "c"] := by decide

/-- C5, amended: re-applying the filter to its own output is a no-op
only when that output is empty; on any non-empty output the second
application drops at least the last element. -/
theorem c5_amended_idempotent_only_empty (l : List String)
    (h : filterTests (filterTests l) = filterTests l) : filterTests l = [] := by
  by_contra hne
  have hslen : (sortStrings (filterTests l)).length = (filterTests l).length :=
    (perm_sortBy leStr (filterTests l)).length_eq
  have hsne : sortStrings (filterTests l) ≠ [] := by
    intro hnil
    rw [hnil] at hslen
    exact hne (List.eq_nil_of_length_eq_zero hslen.symm)
  have hlt : (filterTests (filterTests l)).length < (filterTests l).length := by
    have := filterAdj_length_lt (sortStrings (filterTests l)) hsne
    rw [hslen] at this
    exact this
  rw [h] at hlt
  exact Nat.lt_irrefl _ hlt

/-- C5, witness for the amended theorem at `l = ["q"]` (the output is
empty, and the hypothesis holds there). -/
theorem c5_amended_idempotent_only_empty_witness : filterTests ["q"] = [] :=
  c5_amended_idempotent_only_empty ["q"] (by decide)

/-- C9, counterexample: the call is not free of effects on its input —
`sort.Strings` sorts the argument slice in place, so after
`filterTests(["b", "a"])` the caller's slice holds `["a", "b"]`, not the
original order. -/
theorem c9_counterexample : filterTestsPost ["b", "a"] ≠ ["b", "a"] := by decide

/-- C9, amended: the filter is deterministic and its only effect on the
input collection is sorting it in place — after the call the caller's
slice holds exactly the same test names (a permutation) arranged in
ascending lexicographic order; the original order is not preserved in
general. -/
theorem c9_amended_sorted_in_place (l : List String) :
    (filterTestsPost l).Perm l ∧ chainB leStr (filterTestsPost l) = true :=
  ⟨perm_sortBy leStr l, chainB_sortBy leStr leStr_total l⟩

/-- C10, counterexample: with duplicates the lexicographically greatest
test *name* can still be returned — on `["a", "a"]` the result is
`["a"]`, and `"a"` is the greatest name of the input. -/
theorem c10_counterexample :
    "a" ∈ filterTests ["a", "a"] ∧
    (∀ x ∈ (["a", "a"] : List String), leStr x "a" = true) := by decide

/-- C10, amended: for every duplicate-free input, the lexicographically
greatest test name is never returned (the loop unconditionally skips the
last position of the sorted input), and for every single-element input
the result is the empty list. -/
theorem c10_amended_nodup_greatest (l : List String) (g : String)
    (hnd : l.Nodup) (_hmem : g ∈ l) (hmax : ∀ x ∈ l, leStr x g = true) :
    g ∉ filterTests l ∧ filterTests [g] = [] := by
  refine ⟨?_, rfl⟩
  intro hin
  have hperm := perm_sortBy leStr l
  have hchain := chainB_sortBy leStr leStr_total l
  have hnodup : (sortStrings l).Nodup := hperm.nodup_iff.mpr hnd
  have hmax2 : ∀ x ∈ sortStrings l, leStr x g = true := fun x hx => hmax x (hperm.subset hx)
  exact max_not_mem_dropLast g (sortStrings l) hchain hnodup hmax2
    (List.Sublist.mem hin (filterAdj_sublist (sortStrings l)))

/-- C10, witness for the amended theorem at `l = ["b", "a"]`,
`g = "b"`. -/
theorem c10_amended_nodup_greatest_witness :
    "b" ∉ filterTests ["b", "a"] ∧ filterTests ["b"] = [] :=
  c10_amended_nodup_greatest ["b", "a"] "b" (by decide) (by decide) (by decide)

/-! ## Claims about the reporters (C2, C4, C8) -/

/-- C2, counterexample: a limit of `0` does not mean "no limit" — with
one aggregated row and `limit = 0` the guard `limit >= 0 && len > limit`
fires, `n` stays `0`, and the slice `testInfos[:0]` drops every row. -/
theorem c2_counterexample :
    ("t", 3) ∈ rankRows [("t", 3)] ∧ ("t", 3) ∉ topfailRows 0 [("t", 3)] := by decide

/-- C2, amended: only a *negative* limit means "no limit" (the guard
`limit >= 0` fails and nothing is truncated); a limit of exactly `0`
truncates every row away whenever any aggregated rows exist. -/
theorem c2_amended_limit (limit : Int) (rows : List (String × Nat)) :
    (limit < 0 → topfailRows limit rows = rankRows rows) ∧
    (rows ≠ [] → topfailRows 0 rows = []) := by
  constructor
  · intro hneg
    unfold topfailRows topfailTruncate
    rw [if_neg (fun hc => absurd hc.1 (by omega))]
  · intro hne
    have hlen : 0 < (rankRows rows).length := by
      have he : (rankRows rows).length = rows.length := (perm_sortBy geCnt rows).length_eq
      have hp : 0 < rows.length := List.length_pos.mpr hne
      omega
    unfold topfailRows topfailTruncate
    rw [if_pos ⟨le_refl 0, by exact_mod_cast hlen⟩, if_neg (by omega)]
    simp

/-- C2, witness for the amended theorem: a negative limit keeps the one
row, a zero limit drops it. -/
theorem c2_amended_limit_witness :
    topfailRows (-1) [("t", 3)] = rankRows [("t", 3)] ∧ topfailRows 0 [("t", 3)] = [] :=
  ⟨(c2_amended_limit (-1) [("t", 3)]).1 (by decide),
   (c2_amended_limit (-1) [("t", 3)]).2 (by decide)⟩

/-- C4, counterexample: with `limit = 1` and exactly one aggregated row
the `topfail` output is that full row, not `limit - 1 = 0` rows — the
guard `len(testInfos) > limit` is false when the sizes are equal, so no
truncation happens at all. -/
theorem c4_counterexample : topfailRows 1 [("t", 3)] = [("t", 3)] := by decide

/-- C4, amended: when the number of aggregated rows exactly equals the
requested positive limit, the truncation step is skipped entirely and
all rows are printed; the clamping branch `n = len(testInfos) - 1`
inside the guard is unreachable, so no off-by-one occurs. -/
theorem c4_amended_no_truncation (k : Int) (rows : List (String × Nat))
    (_hpos : 0 < k) (hlen : (rows.length : Int) = k) :
    topfailRows k rows = rankRows rows := by
  have he : (rankRows rows).length = rows.length := (perm_sortBy geCnt rows).length_eq
  unfold topfailRows topfailTruncate
  rw [if_neg (fun hc => by omega)]

/-- C4, witness for the amended theorem at `k = 1` with one row. -/
theorem c4_amended_no_truncation_witness :
    topfailRows 1 [("t", 9)] = rankRows [("t", 9)] :=
  c4_amended_no_truncation 1 [("t", 9)] (by decide) (by decide)

/-- C8: in both reporters every printed table is ordered by
non-increasing count (each row's count is at least the next row's), the
`failstats` tables print a permutation of all aggregated rows, and every
row surviving the `topfail` truncation is an aggregated row. -/
theorem c8_ranking_rows (rows : List (String × Nat)) (limit : Int) :
    chainB geCnt (failstatsRows rows) = true ∧
    (failstatsRows rows).Perm rows ∧
    chainB geCnt (topfailRows limit rows) = true ∧
    (∀ x ∈ topfailRows limit rows, x ∈ rows) := by
  refine ⟨chainB_sortBy geCnt geCnt_total rows, perm_sortBy geCnt rows, ?_, ?_⟩
  · unfold topfailRows topfailTruncate
    split
    · exact chainB_take geCnt (rankRows rows) _ (chainB_sortBy geCnt geCnt_total rows)
    · exact chainB_sortBy geCnt geCnt_total rows
  · intro x hx
    have hx2 : x ∈ rankRows rows := by
      unfold topfailRows topfailTruncate at hx
      split at hx
      · exact List.mem_of_mem_take hx
      · exact hx
    exact (perm_sortBy geCnt rows).subset hx2

/-- C8, witness at two concrete rows with `limit = 1`. -/
theorem c8_ranking_rows_witness :
    chainB geCnt (failstatsRows [("a", 1), ("b", 2)]) = true ∧
    ("b", 2) ∈ [("a", 1), ("b", 2)] :=
  ⟨(c8_ranking_rows [("a", 1), ("b", 2)] 1).1,
   (c8_ranking_rows [("a", 1), ("b", 2)] 1).2.2.2 ("b", 2) (by decide)⟩

/-! ## Claim about the operator builders (C7) -/

/-- C7: `Max` with a single argument emits the bare argument as the
`$max` body, with two arguments it emits the two-element array; the same
single-argument collapsing holds for `Min` and `MergeObjects`. -/
theorem c7_single_argument_collapsing (x y : agg.BsonValue) :
    agg.Max [x] = [("$max", x)] ∧
    agg.Max [x, y] = [("$max", agg.BsonValue.arr [x, y])] ∧
    agg.Min [x] = [("$min", x)] ∧
    agg.Min [x, y] = [("$min", agg.BsonValue.arr [x, y])] ∧
    agg.MergeObjects [x] = [("$mergeObjects", x)] ∧
    agg.MergeObjects [x, y] = [("$mergeObjects", agg.BsonValue.arr [x, y])] :=
  ⟨rfl, rfl, rfl, rfl, rfl, rfl⟩

/-! ## Claim about the `graphql` helper (C6) -/

/-- C6, counterexample: the helper does not fail on a non-2xx HTTP
status — for a status-500 response whose body unmarshals with an empty
`errors` array, `graphql` succeeds, because the code never reads
`res.StatusCode`. -/
theorem c6_counterexample :
    gqlFails (.response 500 (.wellFormed [] "d")) = false := by decide

/-- C6, amended: the helper fails whenever the response contains a
non-empty top-level `errors` array, regardless of HTTP status, but it
never inspects the status at all (its result is the same for any two
statuses); it returns an error in exactly the cases: transport failure,
deserialization failure, or non-empty `errors` array — a non-2xx status
alone is not an error. -/
theorem c6_amended_status_blind (st st2 : Nat) (b : GqlBody)
    (errs : List String) (d : String) :
    graphql (.response st b) = graphql (.response st2 b) ∧
    (errs ≠ [] → gqlFails (.response st (.wellFormed errs d)) = true) ∧
    gqlFails .transportErr = true ∧
    gqlFails (.response st .malformed) = true ∧
    graphql (.response st (.wellFormed [] d)) = .ok (.wellFormed [] d) := by
  refine ⟨?_, ?_, rfl, rfl, rfl⟩
  · cases b with
    | malformed => rfl
    | wellFormed errs2 d2 => rfl
  · intro hne
    cases errs with
    | nil => exact absurd rfl hne
    | cons e es => simp [gqlFails, graphql]

/-- C6, witness for the amended theorem at status 404: a non-empty
`errors` array fails, an empty one succeeds. -/
theorem c6_amended_status_blind_witness :
    gqlFails (.response 404 (.wellFormed ["boom"] "d")) = true ∧
    graphql (.response 404 (.wellFormed [] "d")) = .ok (.wellFormed [] "d") :=
  ⟨(c6_amended_status_blind 404 200 .malformed ["boom"] "d").2.1 (by decide),
   (c6_amended_status_blind 404 200 .malformed ["boom"] "d").2.2.2.2⟩
